import Mathlib

/-!
Verification of the `sd_video.py` text/image-to-video sampling pipeline.

Tensors are shallowly embedded as rational-valued functions of natural-number
indices; shape bounds appear as side conditions or as the ranges of the
explicit summations.  Floating-point arithmetic is idealised as exact rational
arithmetic; the standard deviation computed by `torch.std` is characterised by
its square (`IsStd`), since a square root of a rational need not be rational.
-/

namespace SDVideo

/-- Sum of `f 0 + f 1 + ... + f (n-1)`, the executable summation primitive
used to embed tensor reductions (`torch.mean` / `torch.std`). -/
def qsum : Nat → (Nat → ℚ) → ℚ
  | 0, _ => 0
  | n + 1, f => qsum n f + f n

/-- Triple sum over the batch, frame and first spatial axes (the reduction
ranges of `dim=[0, 2, 3]`). -/
def qsum3 (B F H : Nat) (f : Nat → Nat → Nat → ℚ) : ℚ :=
  qsum B fun b => qsum F fun fr => qsum H fun u => f b fr u

/-- Quadruple sum over batch, frame and both spatial axes (the reduction
ranges of a whole channel). -/
def qsum4 (B F H W : Nat) (f : Nat → Nat → Nat → Nat → ℚ) : ℚ :=
  qsum B fun b => qsum F fun fr => qsum H fun u => qsum W fun v => f b fr u v

/-- Blend schedule of `SDVideo.process`:
`alphas = [initial_alpha * (ratio ** i) for i in range(max_frames)]`. -/
def alphas (a0 r : ℚ) (max_frames : Nat) : List ℚ :=
  (List.range max_frames).map (fun i => a0 * r ^ i)

/-- A 5-dimensional tensor, indexed `(batch, channel, frame, u, v)` where `u`
is the first spatial axis (dim 3) and `v` the second (dim 4).  Out-of-range
indices are irrelevant: every reduction sums over explicit ranges. -/
def Tensor5 : Type := Nat → Nat → Nat → Nat → Nat → ℚ

/-- A single frame `(batch, channel, u, v)`, an element of the
`blended_tensors` list before `torch.cat` along the frame axis. -/
def Tensor4 : Type := Nat → Nat → Nat → Nat → ℚ

/-- `SDVideo.preprocess_image_RGB`: the decoded, resized RGB image (8-bit
values `img c u v ≤ 255`, scaled by `1/255` as `to_tensor` does) is copied
identically into every frame `j < max_frames` of channels `0..2` of a
`torch.zeros((1, 4, max_frames, 32, 32))` tensor; channel 3 stays zero. -/
def preprocess_image_RGB (img : Nat → Nat → Nat → Nat) (max_frames : Nat) : Tensor5 :=
  fun b c f u v =>
    if b = 0 ∧ c < 3 ∧ f < max_frames ∧ u < 32 ∧ v < 32 then (img c u v : ℚ) / 255 else 0

/-- `image_tensor.mean(dim=[0, 2, 3], keepdim=True)`: the mean over the batch,
frame and first spatial axes, leaving one scalar per `(channel, v)` pair.
`B`, `F`, `H` are the sizes of the reduced axes (1, `max_frames`, 32 in
`SDVideo.process`). -/
def sliceMean (B F H : Nat) (x : Tensor5) (c v : Nat) : ℚ :=
  qsum3 B F H (fun b f u => x b c f u v) / (B * F * H)

/-- The square of `image_tensor.std(dim=[0, 2, 3], keepdim=True)`: the
Bessel-corrected sample variance over the batch, frame and first spatial axes
(`torch.std` defaults to `correction=1`). -/
def sliceVar (B F H : Nat) (x : Tensor5) (c v : Nat) : ℚ :=
  qsum3 B F H (fun b f u => (x b c f u v - sliceMean B F H x c v) ^ 2) / (B * F * H - 1)

/-- `σ` is the tensor that `torch.std(dim=[0, 2, 3])` returns: the
nonnegative square root of `sliceVar`, characterised by its square because a
rational has no computable square root in general. -/
def IsStd (B F H C W : Nat) (x : Tensor5) (σ : Nat → Nat → ℚ) : Prop :=
  ∀ c, c < C → ∀ v, v < W → 0 ≤ σ c v ∧ σ c v ^ 2 = sliceVar B F H x c v

/-- `normalized_image_tensor = (image_tensor - image_mean) / image_std`:
entry-wise, with the statistics broadcast from their `(channel, v)` slice. -/
def normalizedImage (B F H : Nat) (x : Tensor5) (σ : Nat → Nat → ℚ) : Tensor5 :=
  fun b c f u v => (x b c f u v - sliceMean B F H x c v) / σ c v

/-- Mean of one whole channel of a `(B, C, F, H, W)` tensor (reduction over
batch, frame and both spatial axes) — the statistic the spec calls "one mean
scalar per channel". -/
def channelMean (B F H W : Nat) (x : Tensor5) (c : Nat) : ℚ :=
  qsum4 B F H W (fun b f u v => x b c f u v) / (B * F * H * W)

/-- Bessel-corrected sample variance of one whole channel, the statistic the
spec claims equals 1 after normalization. -/
def channelVar (B F H W : Nat) (x : Tensor5) (c : Nat) : ℚ :=
  qsum4 B F H W (fun b f u v => (x b c f u v - channelMean B F H W x c) ^ 2) /
    (B * F * H * W - 1)

/-- `combined_tensor = input_noise_tensor.clone()` followed by
`combined_tensor[:, :3, :, :, :] = normalized_image_tensor[:, :3, :, :, :]`:
channels 0..2 come from the normalized image, channel 3 (and up) keep the
initial Gaussian noise draw `n1`. -/
def combined_tensor (nimg n1 : Tensor5) : Tensor5 :=
  fun b c f u v => if c < 3 then nimg b c f u v else n1 b c f u v

/-- The `blended_tensors` list built by the per-frame loop in
`SDVideo.process`: frame `i` is
`alphas[i] * combined_tensor[:, :, i] + (1 - alphas[i]) * noise_tensor[:, :, i]`. -/
def blended_tensors (a0 r : ℚ) (max_frames : Nat) (comb n2 : Tensor5) : List Tensor4 :=
  (List.range max_frames).map (fun i => fun b c u v =>
    (alphas a0 r max_frames).getD i 0 * comb b c i u v +
      (1 - (alphas a0 r max_frames).getD i 0) * n2 b c i u v)

/-- `blended_tensor = torch.cat(blended_tensors, dim=2)`: the frame index
selects the corresponding element of the list. -/
def blended_tensor (a0 r : ℚ) (max_frames : Nat) (comb n2 : Tensor5) : Tensor5 :=
  fun b c f u v =>
    ((blended_tensors a0 r max_frames comb n2).getD f (fun _ _ _ _ => 0)) b c u v

/-- A constant 5-d tensor, used to instantiate noise draws in concrete
counterexamples (any rational tensor is a possible value of `torch.randn`). -/
def constT5 (q : ℚ) : Tensor5 := fun _ _ _ _ _ => q

/-- A constant 8-bit image: every pixel of every channel has value `k`. -/
def constImage (k : Nat) : Nat → Nat → Nat → Nat := fun _ _ _ => k

/-- Concrete test image: in every channel and every column `v`, the four
pixels `u < 4` have 8-bit value `v + 1` and the rest are `0`. -/
def imgCE : Nat → Nat → Nat → Nat := fun _ u v => if u < 4 then v + 1 else 0

/-- The image tensor produced by `preprocess_image_RGB` from `imgCE` with
`max_frames = 2`. -/
def x0CE : Tensor5 := preprocess_image_RGB imgCE 2

/-- The `(channel, v)`-sliced standard deviation of `x0CE`: each column of an
RGB channel holds eight entries `(v+1)/255` and fifty-six zeros, whose
Bessel-corrected standard deviation is `(v+1)/765`; channel 3 is constant. -/
def σ0CE : Nat → Nat → ℚ := fun c v => if c < 3 ∧ v < 32 then ((v : ℚ) + 1) / 765 else 0

/-- Tiny concrete tensor whose `(B, F, H) = (1, 1, 3)` slices hold `0, 1, 2`:
their mean and Bessel-corrected sample variance are both 1. -/
def xTiny : Tensor5 := fun _ _ _ u _ => (u : ℚ)

/-- The slice standard deviation of `xTiny` over `(1, 1, 3)`. -/
def σTiny : Nat → Nat → ℚ := fun _ _ => 1

/-- A latent tensor of shape `(1, 4, F, H, W)`, as handed to the decoder
adapter after sampling. -/
def Latent (F H W : Nat) : Type := Fin 1 → Fin 4 → Fin F → Fin H → Fin W → ℚ

/-- `video_data = 1. / scale_factor * x0`. -/
def scaledLatent (s : ℚ) {F H W : Nat} (x : Latent F H W) : Latent F H W :=
  fun b c f u v => 1 / s * x b c f u v

/-- `rearrange(video_data, 'b c f h w -> (b f) c h w')` with `b = 1`: flat
batch index `k` decomposes as `k = b * F + f`, so `b = k / F`, `f = k % F`. -/
def flattenFrames {F H W : Nat} (y : Latent F H W) :
    Fin (1 * F) → Fin 4 → Fin H → Fin W → ℚ :=
  fun k c u v => y k.divNat c k.modNat u v

/-- `self.vae.decode(video_data)`: the opaque per-image decoder `dec` is
applied to each element of the flattened batch. -/
def decodeFlat {F H W H2 W2 : Nat}
    (dec : (Fin 4 → Fin H → Fin W → ℚ) → (Fin 3 → Fin H2 → Fin W2 → ℚ))
    (z : Fin (1 * F) → Fin 4 → Fin H → Fin W → ℚ) :
    Fin (1 * F) → Fin 3 → Fin H2 → Fin W2 → ℚ :=
  fun k => dec (z k)

/-- `rearrange(video_data, '(b f) c h w -> b c f h w', b=bs_vd)` with
`bs_vd = 1`: batch `b` and frame `f` recombine into flat index `b * F + f`. -/
def unflattenFrames {F H2 W2 : Nat}
    (z : Fin (1 * F) → Fin 3 → Fin H2 → Fin W2 → ℚ) :
    Fin 1 → Fin 3 → Fin F → Fin H2 → Fin W2 → ℚ :=
  fun b c f u v =>
    z ⟨b.val * F + f.val, by
        have hf := f.isLt
        have hb0 : b.val = 0 := by have hb := b.isLt; omega
        rw [hb0]; simp [hf]⟩ c u v

/-- The full latent-decoder adapter of `SDVideo.process`: rescale by
`1 / scale_factor`, flatten frames into the batch axis, decode each flattened
image, and unflatten back to `(1, 3, F, H2, W2)`. -/
def decoderAdapter (s : ℚ) {F H W H2 W2 : Nat}
    (dec : (Fin 4 → Fin H → Fin W → ℚ) → (Fin 3 → Fin H2 → Fin W2 → ℚ))
    (x : Latent F H W) : Fin 1 → Fin 3 → Fin F → Fin H2 → Fin W2 → ℚ :=
  unflattenFrames (decodeFlat dec (flattenFrames (scaledLatent s x)))

/-- `torch.round`, which rounds half to even (banker's rounding). -/
def roundHalfEven (q : ℚ) : ℤ :=
  if q - ⌊q⌋ < 1 / 2 then ⌊q⌋
  else if 1 / 2 < q - ⌊q⌋ then ⌊q⌋ + 1
  else if ⌊q⌋ % 2 = 0 then ⌊q⌋ else ⌊q⌋ + 1

/-- One entry of `tensor2vid`: `video.mul_(std).add_(mean)` (defaults
`mean = std = 0.5`). -/
def tensor2vid_entry (mean std x : ℚ) : ℚ := x * std + mean

/-- One entry of `SDVideo.save_webm`:
`images.mul(255).round().clamp(0, 255)` — round first, then saturate into
the 8-bit range. -/
def to_uint8 (y : ℚ) : ℤ := min 255 (max 0 (roundHalfEven (y * 255)))

/-- The emitted 8-bit pixel for one decoded value, through `postprocess`
(`tensor2vid` with the default mean/std 0.5) and `save_webm`. -/
def framePixel (x : ℚ) : ℤ := to_uint8 (tensor2vid_entry (1 / 2) (1 / 2) x)

/-- The parameters of the public generation surface `SDVideo.__call__`.
The Python defaults are `text_neg=''`, `max_frames=16`, `initial_alpha=0.23`,
`ratio=0.8`, `image_path='input.png'`, `output_file_path='output.webm'`,
`fps=24`; there is no guidance-scale parameter.  The decay field is named
`ratio` in the source. -/
structure CallArgs where
  text : String
  text_neg : String
  max_frames : Nat
  initial_alpha : ℚ
  decay : ℚ
  image_path : String
  output_file_path : String
  fps : Nat

/-- The scheduler-facing arguments that `SDVideo.process` passes to
`self.diffusion.ddim_sample_loop`. -/
structure DDIMCall where
  guide_scale : ℚ
  ddim_timesteps : Nat
  eta : ℚ

/-- `SDVideo.process` invokes `ddim_sample_loop` with the literal arguments
`guide_scale=9.0, ddim_timesteps=50, eta=0.0`, independent of anything the
caller passed to `__call__`. -/
def process_ddim_call : DDIMCall :=
  { guide_scale := 9, ddim_timesteps := 50, eta := 0 }

/-- The `DDIMCall` resulting from a `__call__` invocation: `__call__` forwards
to `process`, which ignores every caller argument when building it. -/
def call_ddim (_ : CallArgs) : DDIMCall := process_ddim_call

/-- `multiline_prompt.split("\n")` on the underlying character list. -/
def splitNL : List Char → List (List Char)
  | [] => [[]]
  | ch :: cs =>
      match splitNL cs with
      | [] => [[ch]]
      | l :: ls => if ch = '\n' then [] :: l :: ls else (ch :: l) :: ls

/-- `multiline_prompt.split("\n")` as a `String` operation. -/
def split_newlines (s : String) : List String :=
  (splitNL s.data).map (fun l => String.mk l)

/-- The frame accumulation of `SDVideo.process_multiline_prompt`: for each
prompt, run one full generation (`gen`, the opaque composition of `__call__`,
the WEBM write and the `imageio.mimread` read-back) seeded with the current
image, append its frames to `all_frames`, and reseed the next generation with
the last read-back frame (`video_frames[-1]`). -/
def chain_frames {α : Type} (gen : String → α → List α) :
    List String → α → List α
  | [], _ => []
  | p :: ps, ip => gen p ip ++ chain_frames gen ps ((gen p ip).getLastD ip)

/-- The seed image each chained generation is invoked with: the first uses
the caller's `image_path` image, each later one uses the previous
generation's last frame (saved as `temp_last_frame.png`). -/
def chain_seeds {α : Type} (gen : String → α → List α) :
    List String → α → List α
  | [], _ => []
  | p :: ps, ip => ip :: chain_seeds gen ps ((gen p ip).getLastD ip)

/-- All frames written to the final concatenated video by
`process_multiline_prompt`. -/
def process_multiline_frames {α : Type} (gen : String → α → List α)
    (multiline : String) (img : α) : List α :=
  chain_frames gen (split_newlines multiline) img

/-- The `__call__` argument records built by the loop of
`process_multiline_prompt`: `self.__call__(prompt, max_frames=max_frames,
initial_alpha=initial_alpha, ratio=ratio, image_path=image_path,
output_file_path=output_file_path, fps=fps)` — `text_neg` is never passed,
so it is always the Python default `''`; `image_path` is replaced by
`temp_last_frame.png` after the first iteration. -/
def multiline_call_list (mf : Nat) (ia rt : ℚ) (ofp : String) (fps : Nat) :
    List String → String → List CallArgs
  | [], _ => []
  | p :: ps, ip =>
      { text := p, text_neg := "", max_frames := mf, initial_alpha := ia, decay := rt,
        image_path := ip, output_file_path := ofp, fps := fps } ::
        multiline_call_list mf ia rt ofp fps ps "temp_last_frame.png"

/-- The full list of `__call__` invocations for a multiline prompt. -/
def multiline_calls (multiline : String) (ip : String) (mf : Nat) (ia rt : ℚ)
    (ofp : String) (fps : Nat) : List CallArgs :=
  multiline_call_list mf ia rt ofp fps (split_newlines multiline) ip

/-- `SDVideo.preprocess`: encode the positive and the negative prompt with
the opaque text encoder; the negative prompt is encoded even when empty. -/
def preprocess_embeddings {E : Type} (enc : String → E) (text text_neg : String) :
    E × E := (enc text, enc text_neg)

/-- The negative conditioning embedding a `__call__` invocation ends up
encoding. -/
def call_neg_embedding {E : Type} (enc : String → E) (a : CallArgs) : E :=
  (preprocess_embeddings enc a.text a.text_neg).2

/-- Concrete generator instance (frames as naturals): each generation emits
four numbered frames derived from its seed. -/
def genW : String → Nat → List Nat := fun _ n => [n + 1, n + 2, n + 3, n + 4]

/-- Observable side effects of `SDVideo.process`, in program order. -/
inductive Event where
  | writeFile : String → Event
  | ddimSample : Event
  | decodeLatent : Event
deriving DecidableEq

/-- `SDVideo.save_noise`: for each `j in range(max_frames)`, write a preview
image at `os.path.join(os.getcwd(), f'noise/preview_frame_{j}.png')`. -/
def save_noise_events (cwd : String) (max_frames : Nat) : List Event :=
  (List.range max_frames).map (fun j =>
    Event.writeFile (cwd ++ "/" ++ ("noise/preview_frame_" ++ toString j ++ ".png")))

/-- The side-effect trace of `SDVideo.process`: `save_noise` runs
unconditionally, before `ddim_sample_loop` and the decode. -/
def process_events (cwd : String) (max_frames : Nat) : List Event :=
  save_noise_events cwd max_frames ++ [Event.ddimSample, Event.decodeLatent]

theorem qsum_congr (n : Nat) (f g : Nat → ℚ) (h : ∀ i, i < n → f i = g i) :
    qsum n f = qsum n g := by
  induction n with
  | zero => rfl
  | succ n ih =>
      simp only [qsum]
      rw [ih (fun i hi => h i (Nat.lt_succ_of_lt hi)), h n (Nat.lt_succ_self n)]

theorem qsum_const (n : Nat) (q : ℚ) : qsum n (fun _ => q) = n * q := by
  induction n with
  | zero => simp [qsum]
  | succ n ih => simp [qsum, ih]; ring

theorem qsum_zero_fn (n : Nat) : qsum n (fun _ => (0 : ℚ)) = 0 := by
  simpa using qsum_const n 0

theorem qsum_sub (n : Nat) (f g : Nat → ℚ) :
    qsum n (fun i => f i - g i) = qsum n f - qsum n g := by
  induction n with
  | zero => simp [qsum]
  | succ n ih => simp only [qsum, ih]; ring

theorem qsum_div (n : Nat) (f : Nat → ℚ) (k : ℚ) :
    qsum n (fun i => f i / k) = qsum n f / k := by
  induction n with
  | zero => simp [qsum]
  | succ n ih => simp only [qsum, ih]; ring

theorem qsum_ite (n k : Nat) (p q : ℚ) :
    qsum n (fun u => if u < k then p else q)
      = (min n k : Nat) * p + ((n - min n k : Nat) : ℚ) * q := by
  induction n with
  | zero => simp [qsum]
  | succ n ih =>
      simp only [qsum, ih]
      by_cases h : n < k
      · rw [if_pos h]
        have h1 : min (n + 1) k = min n k + 1 := by omega
        rw [h1]
        have h2 : n + 1 - (min n k + 1) = n - min n k := by omega
        rw [h2]; push_cast; ring
      · rw [if_neg h]
        have h1 : min (n + 1) k = min n k := by omega
        rw [h1]
        have h2 : n + 1 - min n k = (n - min n k) + 1 := by omega
        rw [h2]; push_cast; ring

theorem qsum3_congr (B F H : Nat) (f g : Nat → Nat → Nat → ℚ)
    (h : ∀ b fr u, b < B → fr < F → u < H → f b fr u = g b fr u) :
    qsum3 B F H f = qsum3 B F H g := by
  unfold qsum3
  apply qsum_congr; intro b hb
  apply qsum_congr; intro fr hf
  apply qsum_congr; intro u hu
  exact h b fr u hb hf hu

theorem qsum3_const (B F H : Nat) (q : ℚ) :
    qsum3 B F H (fun _ _ _ => q) = ((B * F * H : Nat) : ℚ) * q := by
  unfold qsum3
  simp only [qsum_const]
  push_cast; ring

theorem qsum3_sub (B F H : Nat) (f g : Nat → Nat → Nat → ℚ) :
    qsum3 B F H (fun b fr u => f b fr u - g b fr u)
      = qsum3 B F H f - qsum3 B F H g := by
  unfold qsum3
  simp only [qsum_sub]

theorem qsum3_div (B F H : Nat) (f : Nat → Nat → Nat → ℚ) (k : ℚ) :
    qsum3 B F H (fun b fr u => f b fr u / k) = qsum3 B F H f / k := by
  unfold qsum3
  simp only [qsum_div]

theorem qsum3_eval (F H : Nat) (g : Nat → Nat → Nat → ℚ) (p q : ℚ)
    (h : ∀ b fr u, b < 1 → fr < F → u < H → g b fr u = if u < 4 then p else q) :
    qsum3 1 F H g
      = (F : ℚ) * ((min H 4 : Nat) * p + ((H - min H 4 : Nat) : ℚ) * q) := by
  unfold qsum3
  have h0 : ∀ fr, fr < F →
      qsum H (fun u => g 0 fr u)
        = (min H 4 : Nat) * p + ((H - min H 4 : Nat) : ℚ) * q := by
    intro fr hf
    rw [qsum_congr H _ (fun u => if u < 4 then p else q)
      (fun u hu => h 0 fr u Nat.one_pos hf hu)]
    exact qsum_ite H 4 p q
  show qsum 0 _ + qsum F (fun fr => qsum H fun u => g 0 fr u) = _
  rw [qsum_congr F _ _ h0, qsum_const]
  simp [qsum]

theorem qsum4_eval (F H W : Nat) (g : Nat → Nat → Nat → Nat → ℚ) (p q : ℚ)
    (h : ∀ b fr u v, b < 1 → fr < F → u < H → v < W →
      g b fr u v = if u < 4 then p else q) :
    qsum4 1 F H W g
      = (F : ℚ) * ((min H 4 : Nat) * ((W : ℚ) * p)
          + ((H - min H 4 : Nat) : ℚ) * ((W : ℚ) * q)) := by
  unfold qsum4
  have h0 : ∀ fr u, fr < F → u < H →
      qsum W (fun v => g 0 fr u v)
        = if u < 4 then (W : ℚ) * p else (W : ℚ) * q := by
    intro fr u hf hu
    rw [qsum_congr W _ (fun _ => if u < 4 then p else q)
      (fun v hv => h 0 fr u v Nat.one_pos hf hu hv)]
    by_cases h4 : u < 4
    · rw [if_pos h4, if_pos h4, qsum_const]
    · rw [if_neg h4, if_neg h4, qsum_const]
  have h1 : ∀ fr, fr < F →
      qsum H (fun u => qsum W fun v => g 0 fr u v)
        = (min H 4 : Nat) * ((W : ℚ) * p) + ((H - min H 4 : Nat) : ℚ) * ((W : ℚ) * q) := by
    intro fr hf
    rw [qsum_congr H _ (fun u => if u < 4 then (W : ℚ) * p else (W : ℚ) * q)
      (fun u hu => h0 fr u hf hu)]
    exact qsum_ite H 4 _ _
  show qsum 0 _ + qsum F (fun fr => qsum H fun u => qsum W fun v => g 0 fr u v) = _
  rw [qsum_congr F _ _ h1, qsum_const]
  simp [qsum]

theorem alphas_getD (a0 r : ℚ) (F i : Nat) (hi : i < F) :
    (alphas a0 r F).getD i 0 = a0 * r ^ i := by
  unfold alphas
  rw [List.getD_eq_getElem?_getD, List.getElem?_map, List.getElem?_range hi]
  rfl

/-- C2: for `a0 ∈ [0,1]`, `r ∈ (0,1]` and `F ≥ 1`, the blend schedule built
by `SDVideo.process` satisfies `alphas[i] = a0 * r^i` for every `i < F`,
`alphas[0] = a0`, and is non-increasing. -/
theorem C2_blend_schedule (a0 r : ℚ) (F : Nat) (ha0 : 0 ≤ a0) (_ha1 : a0 ≤ 1)
    (hr0 : 0 < r) (hr1 : r ≤ 1) (hF : 1 ≤ F) :
    (∀ i, i < F → (alphas a0 r F).getD i 0 = a0 * r ^ i) ∧
    (alphas a0 r F).getD 0 0 = a0 ∧
    (∀ i, i + 1 < F →
      (alphas a0 r F).getD (i + 1) 0 ≤ (alphas a0 r F).getD i 0) := by
  refine ⟨fun i hi => alphas_getD a0 r F i hi, ?_, ?_⟩
  · rw [alphas_getD a0 r F 0 (by omega)]; simp
  · intro i hi
    rw [alphas_getD a0 r F (i + 1) hi, alphas_getD a0 r F i (by omega)]
    exact mul_le_mul_of_nonneg_left
      (pow_le_pow_of_le_one hr0.le hr1 (Nat.le_succ i)) ha0

/-- Witness for C2 at the pipeline defaults `a0 = 0.23`, `r = 0.8`, `F = 4`. -/
theorem C2_blend_schedule_witness :
    (alphas (23 / 100) (4 / 5) 4).getD 2 0 = 23 / 100 * (4 / 5) ^ 2 ∧
    (alphas (23 / 100) (4 / 5) 4).getD 0 0 = 23 / 100 ∧
    (alphas (23 / 100) (4 / 5) 4).getD 3 0 ≤ (alphas (23 / 100) (4 / 5) 4).getD 2 0 := by
  have h := C2_blend_schedule (23 / 100) (4 / 5) 4 (by norm_num) (by norm_num)
    (by norm_num) (by norm_num) (by norm_num)
  exact ⟨h.1 2 (by norm_num), h.2.1, h.2.2 2 (by norm_num)⟩

theorem blended_tensors_getD (a0 r : ℚ) (F : Nat) (comb n2 : Tensor5) (i : Nat)
    (hi : i < F) (d : Tensor4) :
    (blended_tensors a0 r F comb n2).getD i d
      = fun b c u v =>
          a0 * r ^ i * comb b c i u v + (1 - a0 * r ^ i) * n2 b c i u v := by
  unfold blended_tensors
  rw [List.getD_eq_getElem?_getD, List.getElem?_map, List.getElem?_range hi]
  simp only [Option.map_some', Option.getD_some, alphas_getD a0 r F i hi]

/-- C1 (amended): frame `i` of the blended tensor is
`alpha_i * combined_i + (1 - alpha_i) * noise_i` with `alpha_i = a0 * r^i`,
across all 4 channels; but the first operand is `combined_tensor`, whose
channels 0..2 hold the normalized image while channel 3 holds the 4th channel
of the initial noise draw `n1` — it is not zero in general, so the 4th-channel
blend mixes two noise samples rather than zeros. -/
theorem C1_blend_formula (a0 r : ℚ) (F : Nat) (nimg n1 n2 : Tensor5)
    (i b c u v : Nat) (hi : i < F) :
    blended_tensor a0 r F (combined_tensor nimg n1) n2 b c i u v
      = a0 * r ^ i * combined_tensor nimg n1 b c i u v
        + (1 - a0 * r ^ i) * n2 b c i u v
    ∧ combined_tensor nimg n1 b 3 i u v = n1 b 3 i u v
    ∧ (c < 3 → combined_tensor nimg n1 b c i u v = nimg b c i u v) := by
  refine ⟨?_, ?_, fun hc => ?_⟩
  · unfold blended_tensor
    rw [blended_tensors_getD a0 r F _ n2 i hi]
  · simp [combined_tensor]
  · simp [combined_tensor, hc]

/-- Witness for C1 at defaults `a0 = 0.23`, `r = 0.8`, `F = 4`, frame 1,
channel 3, with concrete constant tensors. -/
theorem C1_blend_formula_witness :
    blended_tensor (23 / 100) (4 / 5) 4 (combined_tensor (constT5 0) (constT5 1))
        (constT5 2) 0 3 1 0 0
      = 23 / 100 * (4 / 5) ^ 1 * combined_tensor (constT5 0) (constT5 1) 0 3 1 0 0
        + (1 - 23 / 100 * (4 / 5) ^ 1) * constT5 2 0 3 1 0 0
    ∧ combined_tensor (constT5 0) (constT5 1) 0 3 1 0 0 = constT5 1 0 3 1 0 0
    ∧ (3 < 3 → combined_tensor (constT5 0) (constT5 1) 0 3 1 0 0
        = constT5 0 0 3 1 0 0) :=
  C1_blend_formula (23 / 100) (4 / 5) 4 (constT5 0) (constT5 1) (constT5 2)
    1 0 3 0 0 (by norm_num)

/-- C1 counterexample: with the (perfectly possible) Gaussian draw of all
ones for `input_noise_tensor` and for `noise_tensor`, channel 3 of both blend
operands equals 1, refuting "the 4th placeholder channel is zero in both
operands of the blend". -/
theorem C1_counterexample :
    combined_tensor (constT5 0) (constT5 1) 0 3 0 0 0 ≠ 0 ∧
    constT5 1 0 3 0 0 0 ≠ 0 := by
  constructor <;> norm_num [combined_tensor, constT5]

theorem qsum3_sub_const (B F H : Nat) (f : Nat → Nat → Nat → ℚ) (m : ℚ) :
    qsum3 B F H (fun b fr u => f b fr u - m)
      = qsum3 B F H f - ((B * F * H : Nat) : ℚ) * m := by
  have h := qsum3_sub B F H f (fun _ _ _ => m)
  rw [h, qsum3_const]

theorem x0CE_entry (b c f u v : Nat) (hb : b < 1) (hc : c < 3) (hf : f < 2)
    (hu : u < 32) (hv : v < 32) :
    x0CE b c f u v = if u < 4 then ((v : ℚ) + 1) / 255 else 0 := by
  have hb0 : b = 0 := by omega
  subst hb0
  unfold x0CE preprocess_image_RGB imgCE
  rw [if_pos ⟨rfl, hc, hf, hu, hv⟩]
  by_cases h4 : u < 4
  · rw [if_pos h4, if_pos h4]; push_cast; ring
  · rw [if_neg h4, if_neg h4]; norm_num

theorem x0CE_c3 (b f u v : Nat) : x0CE b 3 f u v = 0 := by
  simp [x0CE, preprocess_image_RGB]

theorem sliceMean_x0CE (c v : Nat) (hc : c < 3) (hv : v < 32) :
    sliceMean 1 2 32 x0CE c v = ((v : ℚ) + 1) / 2040 := by
  unfold sliceMean
  rw [qsum3_eval 2 32 _ (((v : ℚ) + 1) / 255) 0
    (fun b f u hb hf hu => x0CE_entry b c f u v hb hc hf hu hv)]
  norm_num
  ring

theorem sliceVar_x0CE (c v : Nat) (hc : c < 3) (hv : v < 32) :
    sliceVar 1 2 32 x0CE c v = (((v : ℚ) + 1) / 765) ^ 2 := by
  unfold sliceVar
  have he : ∀ b f u, b < 1 → f < 2 → u < 32 →
      (x0CE b c f u v - sliceMean 1 2 32 x0CE c v) ^ 2
        = if u < 4 then (((v : ℚ) + 1) / 255 - ((v : ℚ) + 1) / 2040) ^ 2
          else (((v : ℚ) + 1) / 2040) ^ 2 := by
    intro b f u hb hf hu
    rw [x0CE_entry b c f u v hb hc hf hu hv, sliceMean_x0CE c v hc hv]
    by_cases h4 : u < 4
    · rw [if_pos h4, if_pos h4]
    · rw [if_neg h4, if_neg h4]; ring
  rw [qsum3_eval 2 32 _ _ _ he]
  norm_num
  ring

theorem sliceMean_x0CE_c3 (v : Nat) : sliceMean 1 2 32 x0CE 3 v = 0 := by
  unfold sliceMean
  rw [qsum3_congr 1 2 32 _ (fun _ _ _ => 0)
    (fun b f u _ _ _ => x0CE_c3 b f u v), qsum3_const]
  simp

theorem sliceVar_x0CE_c3 (v : Nat) : sliceVar 1 2 32 x0CE 3 v = 0 := by
  unfold sliceVar
  rw [qsum3_congr 1 2 32 _ (fun _ _ _ => 0)
    (fun b f u _ _ _ => by rw [x0CE_c3 b f u v, sliceMean_x0CE_c3 v]; ring),
    qsum3_const]
  simp

theorem isStd_x0CE : IsStd 1 2 32 4 32 x0CE σ0CE := by
  intro c hc v hv
  by_cases h3 : c < 3
  · refine ⟨?_, ?_⟩
    · unfold σ0CE; rw [if_pos ⟨h3, hv⟩]; positivity
    · unfold σ0CE; rw [if_pos ⟨h3, hv⟩, sliceVar_x0CE c v h3 hv]
  · have hc3 : c = 3 := by omega
    subst hc3
    refine ⟨?_, ?_⟩
    · unfold σ0CE
      rw [if_neg (by intro hcon; exact absurd hcon.1 (by omega))]
    · unfold σ0CE
      rw [if_neg (by intro hcon; exact absurd hcon.1 (by omega)),
        sliceVar_x0CE_c3 v]
      ring

theorem normalized_x0CE_entry (b c f u v : Nat) (hb : b < 1) (hc : c < 3)
    (hf : f < 2) (hu : u < 32) (hv : v < 32) :
    normalizedImage 1 2 32 x0CE σ0CE b c f u v
      = if u < 4 then 21 / 8 else -(3 / 8) := by
  have hσv : σ0CE c v = ((v : ℚ) + 1) / 765 := by
    unfold σ0CE; rw [if_pos ⟨hc, hv⟩]
  unfold normalizedImage
  rw [x0CE_entry b c f u v hb hc hf hu hv, sliceMean_x0CE c v hc hv, hσv]
  have hne : ((v : ℚ) + 1) ≠ 0 := by positivity
  by_cases h4 : u < 4
  · rw [if_pos h4, if_pos h4]
    field_simp
    ring
  · rw [if_neg h4, if_neg h4]
    field_simp
    ring

theorem channelMean_normalized_x0CE :
    channelMean 1 2 32 32 (normalizedImage 1 2 32 x0CE σ0CE) 0 = 0 := by
  unfold channelMean
  rw [qsum4_eval 2 32 32 _ (21 / 8) (-(3 / 8))
    (fun b f u v hb hf hu hv =>
      normalized_x0CE_entry b 0 f u v hb (by norm_num) hf hu hv)]
  norm_num

theorem channelVar_normalized_x0CE :
    channelVar 1 2 32 32 (normalizedImage 1 2 32 x0CE σ0CE) 0 = 2016 / 2047 := by
  unfold channelVar
  simp only [channelMean_normalized_x0CE, sub_zero]
  have he : ∀ b f u v, b < 1 → f < 2 → u < 32 → v < 32 →
      (normalizedImage 1 2 32 x0CE σ0CE b 0 f u v) ^ 2
        = if u < 4 then ((21 : ℚ) / 8) ^ 2 else ((3 : ℚ) / 8) ^ 2 := by
    intro b f u v hb hf hu hv
    rw [normalized_x0CE_entry b 0 f u v hb (by norm_num) hf hu hv]
    by_cases h4 : u < 4
    · rw [if_pos h4, if_pos h4]
    · rw [if_neg h4, if_neg h4]; ring
  rw [qsum4_eval 2 32 32 _ _ _ he]
  norm_num

/-- C3 counterexample: for the concrete image `imgCE` with `max_frames = 2`,
the statistics used by `SDVideo.process` are per `(channel, v)` — computed
over `dim=[0, 2, 3]` only — not one scalar per channel: the mean differs
between columns `v = 0` and `v = 1` of channel 0, and channel 0 of the
normalized tensor has sample variance `2016/2047 ≠ 1`.  `σ0CE` is verified to
be exactly the std tensor the code divides by. -/
theorem C3_counterexample :
    IsStd 1 2 32 4 32 x0CE σ0CE ∧
    sliceMean 1 2 32 x0CE 0 0 ≠ sliceMean 1 2 32 x0CE 0 1 ∧
    channelMean 1 2 32 32 (normalizedImage 1 2 32 x0CE σ0CE) 0 = 0 ∧
    channelVar 1 2 32 32 (normalizedImage 1 2 32 x0CE σ0CE) 0 ≠ 1 := by
  refine ⟨isStd_x0CE, ?_, channelMean_normalized_x0CE, ?_⟩
  · rw [sliceMean_x0CE 0 0 (by norm_num) (by norm_num),
      sliceMean_x0CE 0 1 (by norm_num) (by norm_num)]
    norm_num
  · rw [channelVar_normalized_x0CE]
    norm_num

/-- C3 (amended): the normalization at lines 149–153 is per
`(channel, v)`-slice, not per channel: whenever the slice std is nonzero
(and the reduced axes hold more than one element), the corresponding slice of
the normalized tensor has zero mean and unit Bessel-corrected sample
variance.  A whole channel of the normalized tensor need not have unit
variance. -/
theorem C3_slice_normalization (B F H : Nat) (x : Tensor5) (σ : Nat → Nat → ℚ)
    (c v : Nat) (hσ : σ c v ≠ 0) (hσsq : σ c v ^ 2 = sliceVar B F H x c v)
    (hn : 1 < B * F * H) :
    sliceMean B F H (normalizedImage B F H x σ) c v = 0 ∧
    sliceVar B F H (normalizedImage B F H x σ) c v = 1 := by
  have hnq : (B : ℚ) * F * H ≠ 0 := by
    have h0 : ((B * F * H : Nat) : ℚ) ≠ 0 := Nat.cast_ne_zero.mpr (by omega)
    push_cast at h0
    exact h0
  have hn1 : (B : ℚ) * F * H - 1 ≠ 0 := by
    have hlt : (1 : ℚ) < (B : ℚ) * F * H := by exact_mod_cast hn
    exact sub_ne_zero_of_ne (ne_of_gt hlt)
  have hmul : (B : ℚ) * F * H * sliceMean B F H x c v
      = qsum3 B F H (fun b f u => x b c f u v) := by
    unfold sliceMean
    rw [mul_comm]
    exact div_mul_cancel₀ _ hnq
  have hmean : sliceMean B F H (normalizedImage B F H x σ) c v = 0 := by
    unfold sliceMean normalizedImage
    rw [qsum3_div B F H (fun b f u => x b c f u v - sliceMean B F H x c v) (σ c v),
      qsum3_sub_const B F H (fun b f u => x b c f u v) (sliceMean B F H x c v)]
    push_cast
    rw [hmul]
    simp
  refine ⟨hmean, ?_⟩
  unfold sliceVar
  simp only [hmean, sub_zero]
  have hsq : ∀ b f u, b < B → f < F → u < H →
      (normalizedImage B F H x σ b c f u v) ^ 2
        = (x b c f u v - sliceMean B F H x c v) ^ 2 / σ c v ^ 2 := by
    intro b f u _ _ _
    unfold normalizedImage
    rw [div_pow]
  rw [qsum3_congr B F H _ _ hsq,
    qsum3_div B F H (fun b f u => (x b c f u v - sliceMean B F H x c v) ^ 2) (σ c v ^ 2)]
  have hdev : qsum3 B F H (fun b f u => (x b c f u v - sliceMean B F H x c v) ^ 2)
      = ((B : ℚ) * F * H - 1) * sliceVar B F H x c v := by
    unfold sliceVar
    rw [mul_comm]
    exact (div_mul_cancel₀ _ hn1).symm
  rw [hdev, ← hσsq, mul_div_assoc, div_self (pow_ne_zero 2 hσ), mul_one, div_self hn1]

/-- Witness for the amended C3 on a tiny concrete slice: entries `0, 1, 2`
have mean 1 and sample variance 1, so the normalized slice has mean 0 and
variance 1. -/
theorem C3_slice_normalization_witness :
    sliceMean 1 1 3 (normalizedImage 1 1 3 xTiny σTiny) 0 0 = 0 ∧
    sliceVar 1 1 3 (normalizedImage 1 1 3 xTiny σTiny) 0 0 = 1 :=
  C3_slice_normalization 1 1 3 xTiny σTiny 0 0 (by norm_num [σTiny])
    (by norm_num [σTiny, sliceVar, sliceMean, qsum3, qsum, xTiny]) (by norm_num)

theorem sliceVar_of_const (B F H : Nat) (x : Tensor5) (c v : Nat) (q : ℚ)
    (hn : B * F * H ≠ 0)
    (h : ∀ b f u, b < B → f < F → u < H → x b c f u v = q) :
    sliceVar B F H x c v = 0 := by
  have hnq : (B : ℚ) * F * H ≠ 0 := by
    have h0 : ((B * F * H : Nat) : ℚ) ≠ 0 := Nat.cast_ne_zero.mpr hn
    push_cast at h0
    exact h0
  have hmean : sliceMean B F H x c v = q := by
    unfold sliceMean
    rw [qsum3_congr B F H _ (fun _ _ _ => q) h, qsum3_const]
    push_cast
    exact mul_div_cancel_left₀ q hnq
  unfold sliceVar
  rw [qsum3_congr B F H _ (fun _ _ _ => 0)
    (fun b f u hb hf hu => by rw [h b f u hb hf hu, hmean]; ring), qsum3_const]
  simp

/-- C4: on a constant input image (`constImage k`), every standard deviation
that `SDVideo.process` computes at line 150 and divides by at line 153 is
exactly zero — the code performs `0 / 0` (NaN in floating point) and sends
the result into the sampling loop; no `InvalidImage` error exists anywhere in
the code. -/
theorem C4_const_image_zero_std (k F c v : Nat) (hF : 1 ≤ F) (hc : c < 4)
    (hv : v < 32) :
    sliceVar 1 F 32 (preprocess_image_RGB (constImage k) F) c v = 0 ∧
    (∀ σ : Nat → Nat → ℚ,
      IsStd 1 F 32 4 32 (preprocess_image_RGB (constImage k) F) σ → σ c v = 0) := by
  have hvar : sliceVar 1 F 32 (preprocess_image_RGB (constImage k) F) c v = 0 := by
    apply sliceVar_of_const 1 F 32 _ c v (if c < 3 then (k : ℚ) / 255 else 0)
      (by simp; omega)
    intro b f u hb hf hu
    have hb0 : b = 0 := by omega
    subst hb0
    unfold preprocess_image_RGB constImage
    by_cases h3 : c < 3
    · rw [if_pos ⟨rfl, h3, hf, hu, hv⟩, if_pos h3]
    · rw [if_neg (fun hcon => h3 hcon.2.1), if_neg h3]
  refine ⟨hvar, fun σ hσ => ?_⟩
  have h2 := (hσ c hc v hv).2
  rw [hvar] at h2
  exact pow_eq_zero_iff (two_ne_zero) |>.mp h2

/-- Witness for C4 at `k = 128`, `F = 2`, channel 0, column 0. -/
theorem C4_const_image_zero_std_witness :
    sliceVar 1 2 32 (preprocess_image_RGB (constImage 128) 2) 0 0 = 0 :=
  (C4_const_image_zero_std 128 2 0 0 (by norm_num) (by norm_num) (by norm_num)).1

theorem flattenFrames_index {F H W : Nat} (y : Latent F H W) (k : Fin (1 * F))
    (b : Fin 1) (f : Fin F) (hk : k.val = b.val * F + f.val) :
    flattenFrames y k = fun ch hh ww => y b ch f hh ww := by
  funext ch hh ww
  unfold flattenFrames
  congr 1
  · exact Subsingleton.elim _ _
  · apply Fin.ext
    show k.val % F = f.val
    have hb0 : b.val = 0 := by have hb := b.isLt; omega
    rw [hk, hb0, Nat.zero_mul, Nat.zero_add]
    exact Nat.mod_eq_of_lt f.isLt

/-- C5: the latent-decoder adapter preserves frame order and shape: for a
latent of shape `(1, 4, F, H, W)`, output entry `(b, c, f, u, v)` of the
flatten / per-image-decode / unflatten round trip is entry `(c, u, v)` of the
decode of the `1 / scale_factor`-rescaled input frame `f`; the output has
shape `(1, 3, F, H2, W2)` by construction. -/
theorem C5_decoder_round_trip {F H W H2 W2 : Nat} (s : ℚ)
    (dec : (Fin 4 → Fin H → Fin W → ℚ) → (Fin 3 → Fin H2 → Fin W2 → ℚ))
    (x : Latent F H W) (b : Fin 1) (c : Fin 3) (f : Fin F) (u : Fin H2) (v : Fin W2) :
    decoderAdapter s dec x b c f u v
      = dec (fun ch hh ww => 1 / s * x b ch f hh ww) c u v := by
  unfold decoderAdapter unflattenFrames decodeFlat
  rw [flattenFrames_index (scaledLatent s x) _ b f rfl]
  rfl

theorem roundHalfEven_nonpos (q : ℚ) (h : q < 0) : roundHalfEven q ≤ 0 := by
  have h1 : ⌊q⌋ < 0 := Int.floor_lt.mpr (by exact_mod_cast h)
  unfold roundHalfEven
  split_ifs <;> omega

theorem roundHalfEven_ge (q : ℚ) (z : ℤ) (h : (z : ℚ) < q) : z ≤ roundHalfEven q := by
  have h1 : z ≤ ⌊q⌋ := Int.le_floor.mpr h.le
  unfold roundHalfEven
  split_ifs <;> omega

theorem abs_roundHalfEven_sub (q : ℚ) : |(roundHalfEven q : ℚ) - q| ≤ 1 / 2 := by
  have h0 : (⌊q⌋ : ℚ) ≤ q := Int.floor_le q
  have h1 : q < ⌊q⌋ + 1 := Int.lt_floor_add_one q
  unfold roundHalfEven
  split_ifs with hf hg he
  · rw [abs_le]; constructor <;> linarith
  · push_cast; rw [abs_le]; constructor <;> linarith
  · have heq : q - ⌊q⌋ = 1 / 2 := le_antisymm (not_lt.mp hg) (not_lt.mp hf)
    rw [abs_le]; constructor <;> linarith
  · have heq : q - ⌊q⌋ = 1 / 2 := le_antisymm (not_lt.mp hg) (not_lt.mp hf)
    push_cast; rw [abs_le]; constructor <;> linarith

/-- C6: post-processing saturates rather than wraps or rejects: any decoded
value below the floor `-1` (for the default `mean = std = 0.5`) yields pixel
0, any value above the ceiling `+1` yields pixel 255, and in-range values are
rounded to the nearest integer of `(x * 0.5 + 0.5) * 255` (within 1/2), never
truncated. -/
theorem C6_frame_postprocess (x : ℚ) :
    (x < -1 → framePixel x = 0) ∧
    (1 < x → framePixel x = 255) ∧
    (-1 ≤ x → x ≤ 1 →
      0 ≤ framePixel x ∧ framePixel x ≤ 255 ∧
      |(framePixel x : ℚ) - tensor2vid_entry (1 / 2) (1 / 2) x * 255| ≤ 1 / 2) := by
  refine ⟨?_, ?_, ?_⟩
  · intro hx
    have ht : (x * (1 / 2) + 1 / 2) * 255 < 0 := by nlinarith
    have hr := roundHalfEven_nonpos _ ht
    unfold framePixel to_uint8 tensor2vid_entry
    omega
  · intro hx
    have ht : ((255 : ℤ) : ℚ) < (x * (1 / 2) + 1 / 2) * 255 := by push_cast; nlinarith
    have hr := roundHalfEven_ge _ 255 ht
    unfold framePixel to_uint8 tensor2vid_entry
    omega
  · intro h1 h2
    have ht0 : (0 : ℚ) ≤ (x * (1 / 2) + 1 / 2) * 255 := by nlinarith
    have ht255 : (x * (1 / 2) + 1 / 2) * 255 ≤ 255 := by nlinarith
    have habs := abs_le.mp (abs_roundHalfEven_sub ((x * (1 / 2) + 1 / 2) * 255))
    have hlow : (0 : ℤ) ≤ roundHalfEven ((x * (1 / 2) + 1 / 2) * 255) := by
      have hq : (-1 : ℚ) < (roundHalfEven ((x * (1 / 2) + 1 / 2) * 255) : ℚ) := by
        linarith [habs.1]
      have hz : (-1 : ℤ) < roundHalfEven ((x * (1 / 2) + 1 / 2) * 255) := by
        exact_mod_cast hq
      omega
    have hhigh : roundHalfEven ((x * (1 / 2) + 1 / 2) * 255) ≤ 255 := by
      have hq : (roundHalfEven ((x * (1 / 2) + 1 / 2) * 255) : ℚ) < 256 := by
        linarith [habs.2]
      have hz : roundHalfEven ((x * (1 / 2) + 1 / 2) * 255) < 256 := by
        exact_mod_cast hq
      omega
    have hfp : framePixel x = roundHalfEven ((x * (1 / 2) + 1 / 2) * 255) := by
      unfold framePixel to_uint8 tensor2vid_entry
      omega
    refine ⟨by rw [hfp]; exact hlow, by rw [hfp]; exact hhigh, ?_⟩
    rw [hfp]
    unfold tensor2vid_entry
    rw [abs_le]
    exact ⟨by linarith [habs.1], by linarith [habs.2]⟩

/-- Witness for C6 at `x = -2` (below floor), `x = 2` (above ceiling) and the
in-range `x = 1/3`. -/
theorem C6_frame_postprocess_witness :
    framePixel (-2) = 0 ∧ framePixel 2 = 255 ∧
    (0 ≤ framePixel (1 / 3) ∧ framePixel (1 / 3) ≤ 255 ∧
      |(framePixel (1 / 3) : ℚ) - tensor2vid_entry (1 / 2) (1 / 2) (1 / 3) * 255| ≤ 1 / 2) :=
  ⟨(C6_frame_postprocess (-2)).1 (by norm_num),
   (C6_frame_postprocess 2).2.1 (by norm_num),
   (C6_frame_postprocess (1 / 3)).2.2 (by norm_num) (by norm_num)⟩

/-- C7 counterexample: no argument assignment of the public generation
surface `__call__` can make the sampler run with guidance scale 5 — the scale
is not a parameter, refuting "the caller can supply g and the sampler driver
uses the supplied value". -/
theorem C7_counterexample : ¬ ∃ a : CallArgs, (call_ddim a).guide_scale = 5 := by
  rintro ⟨a, ha⟩
  norm_num [call_ddim, process_ddim_call] at ha

/-- C7 (amended): the guidance scale is not configurable: `__call__` exposes
no guidance parameter and `process` always passes `guide_scale=9.0`
(together with `ddim_timesteps=50` and `eta=0.0`) to `ddim_sample_loop`, for
every call. -/
theorem C7_guide_scale_fixed (a : CallArgs) :
    (call_ddim a).guide_scale = 9 ∧ (call_ddim a).ddim_timesteps = 50 ∧
    (call_ddim a).eta = 0 :=
  ⟨rfl, rfl, rfl⟩

theorem exists_four {α : Type} (l : List α) (h : l.length = 4) :
    ∃ a b c e, l = [a, b, c, e] := by
  rcases l with _ | ⟨a, l⟩
  · simp at h
  rcases l with _ | ⟨b, l⟩
  · simp at h
  rcases l with _ | ⟨c, l⟩
  · simp at h
  rcases l with _ | ⟨e, l⟩
  · simp at h
  rcases l with _ | ⟨g, l⟩
  · exact ⟨a, b, c, e, rfl⟩
  · simp only [List.length_cons] at h; omega

/-- C8: for an input of two newline-delimited prompts whose generations each
produce 4 frames, `process_multiline_prompt` outputs exactly 8 frames, and
the seed image of the second generation is the last frame of the first
segment, which is frame index 3 of the final output. -/
theorem C8_multiline_two_prompts {α : Type} (gen : String → α → List α)
    (s p1 p2 : String) (img : α) (d : α)
    (hs : split_newlines s = [p1, p2])
    (hlen : ∀ p i, (gen p i).length = 4) :
    (process_multiline_frames gen s img).length = 8 ∧
    (chain_seeds gen (split_newlines s) img).getD 1 d
      = (process_multiline_frames gen s img).getD 3 d ∧
    (chain_seeds gen (split_newlines s) img).getD 1 d
      = (gen p1 img).getLastD img := by
  unfold process_multiline_frames
  rw [hs]
  have hcf : chain_frames gen [p1, p2] img
      = gen p1 img ++ (gen p2 ((gen p1 img).getLastD img) ++ []) := rfl
  have hseeds : chain_seeds gen [p1, p2] img
      = [img, (gen p1 img).getLastD img] := rfl
  obtain ⟨a, b, c, e, h4⟩ := exists_four (gen p1 img) (hlen p1 img)
  refine ⟨?_, ?_, ?_⟩
  · rw [hcf, List.length_append, List.length_append, hlen p1 img,
      hlen p2 ((gen p1 img).getLastD img), List.length_nil]
  · rw [hcf, hseeds, h4]
    rfl
  · rw [hseeds]
    rfl

/-- Witness for C8 with a concrete two-line prompt and a generator emitting
four numbered frames per prompt. -/
theorem C8_multiline_two_prompts_witness :
    (process_multiline_frames genW "a\nb" 0).length = 8 ∧
    (chain_seeds genW (split_newlines "a\nb") 0).getD 1 7
      = (process_multiline_frames genW "a\nb" 0).getD 3 7 ∧
    (chain_seeds genW (split_newlines "a\nb") 0).getD 1 7
      = (genW "a" 0).getLastD 0 :=
  C8_multiline_two_prompts genW "a\nb" "a" "b" 0 7 rfl (fun _ _ => rfl)

/-- C9 (implicit): every `__call__` invocation issued by
`process_multiline_prompt` carries the empty negative prompt — the method has
no way to pass one, so the encoded negative conditioning is always `enc ""`. -/
theorem C9_multiline_neg_empty {E : Type} (enc : String → E) (multiline ip : String)
    (mf : Nat) (ia rt : ℚ) (ofp : String) (fps : Nat) (a : CallArgs)
    (ha : a ∈ multiline_calls multiline ip mf ia rt ofp fps) :
    a.text_neg = "" ∧ call_neg_embedding enc a = enc "" := by
  have htn : a.text_neg = "" := by
    unfold multiline_calls at ha
    generalize split_newlines multiline = ps at ha
    induction ps generalizing ip with
    | nil => simp [multiline_call_list] at ha
    | cons p ps ih =>
        simp only [multiline_call_list, List.mem_cons] at ha
        rcases ha with h | h
        · rw [h]
        · exact ih "temp_last_frame.png" h
  refine ⟨htn, ?_⟩
  unfold call_neg_embedding preprocess_embeddings
  rw [htn]

/-- Witness for C9: the first invocation for the two-line prompt `"a\nb"`. -/
theorem C9_multiline_neg_empty_witness :
    ({ text := "a", text_neg := "", max_frames := 16, initial_alpha := 23 / 100,
       decay := 4 / 5, image_path := "input.png", output_file_path := "output.webm",
       fps := 16 } : CallArgs).text_neg = "" ∧
    call_neg_embedding (fun s => s)
      { text := "a", text_neg := "", max_frames := 16, initial_alpha := 23 / 100,
        decay := 4 / 5, image_path := "input.png", output_file_path := "output.webm",
        fps := 16 } = (fun s => s) "" :=
  C9_multiline_neg_empty (fun s => s) "a\nb" "input.png" 16 (23 / 100) (4 / 5)
    "output.webm" 16 _ (List.mem_cons_self _ _)

/-- C10 (implicit): every `process` call writes exactly `max_frames` preview
files, named `noise/preview_frame_j.png` under the current working directory,
unconditionally and all before the sampling step; the trace is
`writes ++ [ddimSample, decodeLatent]`. -/
theorem C10_preview_writes (cwd : String) (F : Nat) :
    (process_events cwd F).length = F + 2 ∧
    (∀ j, j < F → (process_events cwd F).getD j Event.decodeLatent
      = Event.writeFile (cwd ++ "/" ++ ("noise/preview_frame_" ++ toString j ++ ".png"))) ∧
    (process_events cwd F).getD F Event.decodeLatent = Event.ddimSample := by
  refine ⟨?_, ?_, ?_⟩
  · unfold process_events save_noise_events
    simp
  · intro j hj
    unfold process_events save_noise_events
    rw [List.getD_append _ _ _ _ (by simpa using hj),
      List.getD_eq_getElem?_getD, List.getElem?_map, List.getElem?_range hj]
    rfl
  · unfold process_events save_noise_events
    rw [List.getD_append_right _ _ _ _ (by simp)]
    simp

/-- Witness for C10 at `cwd = "/work"`, `F = 2`, preview index 1. -/
theorem C10_preview_writes_witness :
    (process_events "/work" 2).getD 1 Event.decodeLatent
      = Event.writeFile ("/work" ++ "/" ++ ("noise/preview_frame_" ++ toString 1 ++ ".png")) ∧
    (process_events "/work" 2).getD 2 Event.decodeLatent = Event.ddimSample :=
  ⟨(C10_preview_writes "/work" 2).2.1 1 (by norm_num),
   (C10_preview_writes "/work" 2).2.2⟩

end SDVideo
